import Mathlib

/-!
Verification of the Archiveopteryx core against its specification.

Each section embeds one part of the C++ source shallowly in Lean:
strings are `List Char` or `String`, machine integers are `Nat` (with
explicit modular arithmetic where C++ unsigned wraparound matters),
queries and transcripts are explicit lists, and the cooperative state
machines become pure step functions.  The theorems at the end settle
the frozen claims about the program.
-/

set_option autoImplicit false

/-- Out-of-range character access. The String class returns NUL (0) for
an index beyond the end of the string; `charAt` mirrors that. -/
def charAt (s : List Char) (i : Nat) : Char :=
  s.getD i (Char.ofNat 0)

/-- Convenience: the characters of a Lean string literal. -/
def chars (s : String) : List Char :=
  s.toList

/- ===================================================================
   SMTP / LMTP body accumulation (src/smtpd/smtp.cpp, SMTP::body)
   =================================================================== -/

/-- Drops the last character of `l` when it equals `c`; this is one
`if ( i > 0 && line[i-1] == … ) i--` step of SMTP::body followed by the
final `truncate`. -/
def chopIf (c : Char) (l : List Char) : List Char :=
  if l.getLast? = some c then l.dropLast else l

/-- The CR/LF stripping at the top of SMTP::body: one trailing LF (10)
is removed first, then one trailing CR (13). -/
def stripCrLf (l : List Char) : List Char :=
  chopIf (Char.ofNat 13) (chopIf (Char.ofNat 10) l)

/-- SMTP::body on one received line: returns the new body accumulator
and whether inject() was triggered.  After stripping CR/LF, a line that
is exactly "." injects; a line starting with '.' joins the body with
the leading dot removed and CRLF restored; other lines join unchanged
with CRLF restored. -/
def smtpBody (body line : List Char) : List Char × Bool :=
  let t := stripCrLf line
  if t.length = 1 ∧ charAt t 0 = '.' then
    (body, true)
  else if charAt t 0 = '.' then
    (body ++ t.drop 1 ++ chars "\r\n", false)
  else
    (body ++ t ++ chars "\r\n", false)

/- ===================================================================
   Database handle pool (src/db/database.cpp, Database::removeHandle)
   =================================================================== -/

/-- A pending query in the pool's queue, as far as removeHandle touches
it: its error string and whether notify() has been called on it. -/
structure PoolQuery where
  error : Option String
  notified : Bool
deriving DecidableEq, Repr

/-- The configured database endpoint: whether it is a Unix socket, and
its address string (Endpoint::protocol and Endpoint::address). -/
structure EndpointM where
  unix : Bool
  address : List Char
deriving DecidableEq, Repr

/-- String::startsWith, used as `server().address().startsWith(...)`. -/
def startsWithL (s p : List Char) : Bool :=
  p.isPrefixOf s

/-- Database::removeHandle after taking `d` out of the handle list.
`remaining` is the number of handles left in the pool.  When the pool
is now empty, every queued query gets its error set and is notified,
and a disaster is logged precisely when the endpoint is a Unix socket
whose address does not start with the expected root (File::root()).
Returns the updated queue and whether a disaster was logged. -/
def removeHandle (remaining : Nat) (queries : List PoolQuery)
    (srv : EndpointM) (root : List Char) : List PoolQuery × Bool :=
  if remaining ≠ 0 then
    (queries, false)
  else
    (queries.map (fun q =>
       { q with error := some "No available database handles.",
                notified := true }),
     srv.unix && !(startsWithL srv.address root))

/- ===================================================================
   IMAP line and literal framing (src/imap/imap.cpp)
   =================================================================== -/

/-- The backwards digit scan of endsWithLiteral:
`while ( i > 0 && (*s)[i] >= '0' && (*s)[i] <= '9' ) i--`. -/
def scanDigitsDown (s : List Char) : Nat → Nat
  | 0 => 0
  | i + 1 => if '0' ≤ charAt s (i + 1) ∧ charAt s (i + 1) ≤ '9' then
      scanDigitsDown s i
    else
      i + 1

/-- The numeric value of a decimal digit string. -/
def digitVal (s : List Char) : Nat :=
  s.foldl (fun a c => a * 10 + (c.toNat - '0'.toNat)) 0

/-- String::number on a substring: parses a decimal uint, failing on an
empty string, a non-digit, or 32-bit overflow. -/
def strNumber (s : List Char) : Option Nat :=
  if s ≠ [] ∧ s.all (fun c => decide ('0' ≤ c ∧ c ≤ '9')) then
    if digitVal s < 4294967296 then some (digitVal s) else none
  else
    none

/-- The static helper endsWithLiteral: recognises a trailing IMAP
literal specification, returning the byte count and whether the number
had a trailing '+' (LITERAL+).  The index `i = s->length() - 2` is
computed in C++ unsigned arithmetic, hence the explicit wraparound. -/
def endsWithLiteral (s : List Char) : Option (Nat × Bool) :=
  if s.getLast? = some '}' then
    let i0 := (s.length + 4294967294) % 4294967296
    let plus := decide (charAt s i0 = '+')
    let j := if plus then i0 - 1 else i0
    let i := scanDigitsDown s j
    if charAt s i = '{' then
      (strNumber ((s.drop (i + 1)).take (j - i))).map (fun n => (n, plus))
    else
      none
  else
    none

/-- The continuation line sent for a synchronising literal. -/
def contLine : String := "+ reading literal\r\n"

/-- The parser state of one IMAP connection that IMAP::parse works on:
the read buffer, the command accumulator d->str, the literal-reading
flag and size, the enqueued output lines, and the completed command
buffers handed to addCommand (the reserved-reader case is not part of
the modelled claims). -/
structure ImapParseState where
  buffer : List Char
  str : List Char
  readingLiteral : Bool
  literalSize : Nat
  output : List String
  commands : List (List Char)
deriving DecidableEq, Repr

/-- Buffer::removeLine. Modelled from the spec: the Buffer class is not
part of the embedded sources; the spec says the read buffer is parsed
as lines, so this splits at the first LF and strips a trailing CR from
the returned line, consuming the LF. -/
def removeLine (b : List Char) : Option (List Char × List Char) :=
  match b.findIdx? (fun c => c = Char.ofNat 10) with
  | none => none
  | some i => some (chopIf (Char.ofNat 13) (b.take i), b.drop (i + 1))

/-- One iteration of the `while ( true )` loop of IMAP::parse.  `none`
means the iteration executed a `return` (not enough input), leaving the
state untouched; `some st` is the state after the iteration. -/
def imapParseStep (st : ImapParseState) : Option ImapParseState :=
  if st.readingLiteral then
    if st.buffer.length < st.literalSize then
      none
    else
      some { st with
               str := st.str ++ st.buffer.take st.literalSize,
               buffer := st.buffer.drop st.literalSize,
               readingLiteral := false }
  else
    match removeLine st.buffer with
    | none => none
    | some (line, rest) =>
      match endsWithLiteral line with
      | some (n, plus) =>
        some { st with
                 buffer := rest,
                 str := st.str ++ line ++ chars "\r\n",
                 readingLiteral := true,
                 literalSize := n,
                 output := st.output ++ if plus then [] else [contLine] }
      | none =>
        some { st with
                 buffer := rest,
                 str := [],
                 commands := st.commands ++ [st.str ++ line] }

/-- IMAP::parse: iterate the loop body until it returns.  The fuel
bounds the number of iterations; the function is the loop's fixpoint
when the fuel suffices. -/
def imapParse : Nat → ImapParseState → ImapParseState
  | 0, st => st
  | fuel + 1, st =>
    match imapParseStep st with
    | none => st
    | some st' => imapParse fuel st'

/- ===================================================================
   IMAP command scheduler, response emission (IMAP::runCommands)
   =================================================================== -/

/-- Command::state values. -/
inductive CmdState where
  | unparsed
  | blocked
  | executing
  | finished
  | retired
deriving DecidableEq, Repr

/-- The slice of a Command that the emission phase reads: its state and
whether it is ok() (no error response pending). -/
structure CmdM where
  state : CmdState
  ok : Bool
deriving DecidableEq, Repr

/-- The response-emission phase of IMAP::runCommands.  `emit` is the
effect of Command::emitResponses on a command (its state afterwards);
`deferred` is the running deferredResponse flag.  Returns each command
paired with whether its responses were emitted on this pass. -/
def emitPhase (emit : CmdM → CmdState) : List CmdM → Bool → List (CmdM × Bool)
  | [], _ => []
  | c :: cs, deferred =>
    if c.state = CmdState.finished ∧ (deferred = false ∨ c.ok = false) then
      let c' : CmdM := { c with state := emit c }
      (c', true) ::
        emitPhase emit cs (deferred || decide (c'.state = CmdState.finished))
    else
      (c, false) :: emitPhase emit cs deferred

/-- Whether some command of `cs`, attempted during the emission phase
started with flag `deferred`, was left in the Finished state (that is,
whether the deferredResponse flag is set after the phase). -/
def deferredAfter (emit : CmdM → CmdState) : List CmdM → Bool → Bool
  | [], deferred => deferred
  | c :: cs, deferred =>
    if c.state = CmdState.finished ∧ (deferred = false ∨ c.ok = false) then
      deferredAfter emit cs (deferred || decide (emit c = CmdState.finished))
    else
      deferredAfter emit cs deferred

/- ===================================================================
   IMAP::addCommand and the "quit" rewrite
   =================================================================== -/

/-- The first step of IMAP::addCommand: the command buffer "quit" is
rewritten to "arnt logout" before any parsing happens. -/
def quitRewrite (s : List Char) : List Char :=
  if s = chars "quit" then chars "arnt logout" else s

/-- Tag and command-name extraction. Modelled from the spec: ImapParser
is not part of the embedded sources; the spec says commands are
tag-prefixed lines, so the tag is the first space-delimited word, a
space is required after it, and the command name is the next word. -/
def parseTagCommand (s : List Char) : Option (List Char × List Char) :=
  let tag := s.takeWhile (fun c => c ≠ ' ')
  if tag = [] then
    none
  else
    match s.drop tag.length with
    | ' ' :: r =>
      let cmd := r.takeWhile (fun c => c ≠ ' ')
      if cmd = [] then none else some (tag, cmd)
    | _ => none

/-- IMAP::addCommand up to Command::create: rewrite "quit", then parse
the tag and the command name. -/
def addCommandParse (s : List Char) : Option (List Char × List Char) :=
  parseTagCommand (quitRewrite s)

/- ===================================================================
   SMTP recipient verification (SMTP::rcpt / SMTP::rcptAnswer)
   =================================================================== -/

/-- SMTP session states (SMTPData::state). -/
inductive SmtpState where
  | initial
  | mailFrom
  | rcptTo
  | data
  | body
  | injecting
deriving DecidableEq, Repr

/-- A parsed recipient address as SMTP::rcpt sees it: the result of
SMTP::address() (`none` when no address could be extracted), and
Address::valid() on the result. -/
structure AddrM where
  localpart : String
  domain : String
  valid : Bool
deriving DecidableEq, Repr

/-- What one call of SMTP::rcpt does with a recipient. -/
inductive RcptAct where
  | badSequence
  | reject550
  | lookup (a : AddrM)
deriving DecidableEq, Repr

/-- SMTP::rcpt: with the sender not yet given the answer is 503; an
unparsable or invalid address draws 550; otherwise an asynchronous
User lookup is started for the address. -/
def smtpRcpt (st : SmtpState) (parsed : Option AddrM) : RcptAct :=
  if ¬ (st = SmtpState.rcptTo) ∨ st = SmtpState.data then
    RcptAct.badSequence
  else
    match parsed with
    | none => RcptAct.reject550
    | some a => if a.valid then RcptAct.lookup a else RcptAct.reject550

/-- SMTP::rcptAnswer once the User lookup for `a` has finished with
validity `userValid`: returns whether the recipient was appended to
the recipient list, the response code, and the new session state. -/
def smtpRcptAnswer (st : SmtpState) (a : AddrM) (userValid : Bool) :
    Bool × Nat × SmtpState :=
  if userValid then
    (true, 250, SmtpState.data)
  else
    (false, 550, st)

/- ===================================================================
   Injector: UID and modseq assignment (src/message/injector.cpp)
   =================================================================== -/

/-- The prepared statement lockUidnext from Injector::setup. -/
def lockUidnextSql : String :=
  "select uidnext,nextmodseq,first_recent from mailboxes where id=$1 for update"

/-- The prepared statement incrUidnext from Injector::setup. -/
def incrUidnextSql : String :=
  "update mailboxes set uidnext=uidnext+1,nextmodseq=nextmodseq+1 where id=$1"

/-- The prepared statement incrUidnextWithRecent from Injector::setup. -/
def incrUidnextWithRecentSql : String :=
  "update mailboxes set uidnext=uidnext+1,nextmodseq=nextmodseq+1,first_recent=first_recent+1 where id=$1"

/-- The row fetched by lockUidnext for one mailbox. -/
structure MailboxRow where
  uidnext : Nat
  nextmodseq : Nat
  firstRecent : Nat
deriving DecidableEq, Repr

/-- A target mailbox as the UidFetcher sees it: its database id and the
live sessions on it (identified by arbitrary tokens). -/
structure MailboxM where
  mid : Nat
  sessions : List Nat
deriving DecidableEq, Repr

/-- One entry of the injector's d->mailboxes after UidFetcher::process:
the assigned UID and modseq, and the session recorded to receive the
message as Recent, if any. -/
structure UidRes where
  uid : Nat
  ms : Nat
  recentIn : Option Nat
deriving DecidableEq, Repr

/-- UidFetcher::process on one fetched row: takes uid and modseq from
the row, records the first live session when the fetched uidnext equals
the fetched first_recent and a session exists, and enqueues the update
(with the first_recent increment in exactly that case).  The second
component is the enqueued UPDATE with its bound mailbox id. -/
def processUidRow (m : MailboxM) (r : MailboxRow) : UidRes × (String × Nat) :=
  if r.uidnext = r.firstRecent then
    match m.sessions with
    | s :: _ =>
      (⟨r.uidnext, r.nextmodseq, some s⟩, (incrUidnextWithRecentSql, m.mid))
    | [] =>
      (⟨r.uidnext, r.nextmodseq, none⟩, (incrUidnextSql, m.mid))
  else
    (⟨r.uidnext, r.nextmodseq, none⟩, (incrUidnextSql, m.mid))

/-- Injector::selectUids: one lockUidnext SELECT is enqueued per target
mailbox, in list order, with the mailbox id bound. -/
def selectUidsQueries (ms : List MailboxM) : List (String × Nat) :=
  ms.map (fun m => (lockUidnextSql, m.mid))

/-- The UidFetcher processing every fetched row in list order: the
assigned values per mailbox and the UPDATEs enqueued (in order). -/
def uidFetcherRun : List MailboxM → List MailboxRow →
    List UidRes × List (String × Nat)
  | m :: ms, r :: rs =>
    ((processUidRow m r).1 :: (uidFetcherRun ms rs).1,
     (processUidRow m r).2 :: (uidFetcherRun ms rs).2)
  | _, _ => ([], [])

/- ===================================================================
   Injector: bodypart insertion and dedup (BidFetcher::execute)
   =================================================================== -/

/-- A query enqueued by the BidFetcher, as recorded in the transaction
transcript.  `insertBodypart` carries the bound hash and the
allowFailure mark set by Injector::setupBodyparts. -/
inductive TxQuery where
  | plain (sql : String)
  | insertBodypart (hash : String) (allowFailure : Bool)
  | selectBodypart (hash : String)
deriving DecidableEq, Repr

/-- The bodyparts table: rows mapping a hash to an id, and the next id
the serial sequence would assign. -/
structure BodypartsDb where
  rows : List (String × Nat)
  nextId : Nat
deriving DecidableEq, Repr

/-- Lookup of `select id from bodyparts where hash=$1`. -/
def dbLookup (db : BodypartsDb) (h : String) : Option Nat :=
  (db.rows.find? (fun p => p.1 == h)).map (fun p => p.2)

/-- BidFetcher::execute over the storable bodyparts (entries without an
insert are skipped), starting from savepoint counter `sp`.  For each
storable hash: `savepoint a<n>`; the allowFailure INSERT, which fails
exactly when the hash already has a row (the unique index); on failure
`rollback to a<n>`, which undoes nothing since the failed INSERT
inserted nothing; then the SELECT by hash, whose row supplies the bid.
Returns the final table, the transcript, and the bid per bodypart. -/
def bidFetcherRun (db : BodypartsDb) (sp : Nat) :
    List (Option String) → BodypartsDb × List TxQuery × List (Option Nat)
  | [] => (db, [], [])
  | none :: rest =>
    ((bidFetcherRun db sp rest).1,
     (bidFetcherRun db sp rest).2.1,
     none :: (bidFetcherRun db sp rest).2.2)
  | some h :: rest =>
    match dbLookup db h with
    | some oldId =>
      ((bidFetcherRun db (sp + 1) rest).1,
       TxQuery.plain ("savepoint a" ++ Nat.repr sp) ::
         TxQuery.insertBodypart h true ::
         TxQuery.plain ("rollback to a" ++ Nat.repr sp) ::
         TxQuery.selectBodypart h :: (bidFetcherRun db (sp + 1) rest).2.1,
       some oldId :: (bidFetcherRun db (sp + 1) rest).2.2)
    | none =>
      ((bidFetcherRun ⟨(h, db.nextId) :: db.rows, db.nextId + 1⟩ (sp + 1) rest).1,
       TxQuery.plain ("savepoint a" ++ Nat.repr sp) ::
         TxQuery.insertBodypart h true ::
         TxQuery.selectBodypart h ::
           (bidFetcherRun ⟨(h, db.nextId) :: db.rows, db.nextId + 1⟩ (sp + 1) rest).2.1,
       some db.nextId ::
         (bidFetcherRun ⟨(h, db.nextId) :: db.rows, db.nextId + 1⟩ (sp + 1) rest).2.2)

/- ===================================================================
   Injector: choice of stored bodypart columns (setupBodyparts)
   =================================================================== -/

/-- A parsed Content-Type: its type and subtype, both lowercased. -/
structure ContentTypeM where
  ctype : String
  subtype : String
deriving DecidableEq, Repr

/-- A bodypart as setupBodyparts reads it.  `textSer` is the stored
UTF-8 serialisation of b->text(), `rawData` is b->data(), `htmlText`
is the serialisation of HTML::asText( b->text() ) (the codec and the
HTML extractor are external collaborators, so their outputs are
fields), and `numBytes` is b->numBytes(). -/
structure BodypartM where
  ct : Option ContentTypeM
  textSer : String
  rawData : String
  htmlText : String
  numBytes : Nat
deriving DecidableEq, Repr

/-- The storeText/storeData decision of Injector::setupBodyparts, in
the source's order: text/* stores text, with data added for text/html;
otherwise data is stored unless the type is multipart with a subtype
other than signed, or message/rfc822; no content type stores text. -/
def storeChoice (ct : Option ContentTypeM) : Bool × Bool :=
  match ct with
  | none => (true, false)
  | some c =>
    if c.ctype = "text" then
      (true, c.subtype = "html")
    else
      let sd := true
      let sd := if c.ctype = "multipart" ∧ c.subtype ≠ "signed" then false else sd
      let sd := if c.ctype = "message" ∧ c.subtype = "rfc822" then false else sd
      (false, sd)

/-- The claim's own wording of the storage rules, for comparison with
`storeChoice`: text/* stores text and text/html additionally data;
message/rfc822 and multipart/* other than multipart/signed store
neither; any other content type stores only data; no content type
stores text. -/
def claimStoreChoice (ct : Option ContentTypeM) : Bool × Bool :=
  match ct with
  | none => (true, false)
  | some c =>
    if c.ctype = "text" then
      (true, c.subtype = "html")
    else if (c.ctype = "message" ∧ c.subtype = "rfc822") ∨
            (c.ctype = "multipart" ∧ c.subtype ≠ "signed") then
      (false, false)
    else
      (false, true)

/-- The INSERT into bodyparts that setupBodyparts builds, plus the
hash bound in the companion SELECT. -/
structure BodypartInsert where
  hash : String
  bytes : Nat
  textCol : Option String
  dataCol : Option String
  selectHash : String
deriving DecidableEq, Repr

/-- Injector::setupBodyparts on one bodypart, with `md5` the hex MD5
digest function (an external collaborator).  Only a bodypart storing
text or data gets an INSERT/SELECT pair; the hashed bytes are the text
serialisation when text is stored, the raw data otherwise; for
text/html the text column is the HTML extraction while the hashed
serialisation goes to the data column. -/
def setupBodypart (md5 : String → String) (b : BodypartM) :
    Option BodypartInsert :=
  let (st, sd) := storeChoice b.ct
  if st ∨ sd then
    let data := if st then b.textSer else b.rawData
    let hash := md5 data
    some { hash := hash,
           bytes := b.numBytes,
           textCol := if st then some (if sd then b.htmlText else data)
                      else none,
           dataCol := if sd then some data else none,
           selectHash := hash }
  else
    none

/- ===================================================================
   Injector: internal date derivation (Injector::internalDate)
   =================================================================== -/

/-- String::find(c, i): the index of the first occurrence of `c` at a
position ≥ `start`, if any.  (The C++ function returns -1 otherwise;
the call sites modelled here compare the result with 0, which the
Option models because every search here starts at a position ≥ 1.) -/
def findFrom (s : List Char) (c : Char) (start : Nat) : Option Nat :=
  if h : start < s.length then
    if charAt s start = c then some start else findFrom s c (start + 1)
  else
    none
termination_by s.length - start

/-- The semicolon-walking loop of Injector::internalDate:
`while ( v.find( ';', i+1 ) > 0 ) i = v.find( ';', i+1 )`, with fuel
bounding the number of iterations. -/
def lastSemiLoop (s : List Char) : Nat → Nat → Nat
  | i, 0 => i
  | i, fuel + 1 =>
    match findFrom s ';' (i + 1) with
    | some j => lastSemiLoop s j fuel
    | none => i

/-- The index `i` left by the loop, starting from 0 with enough fuel. -/
def lastSemi (s : List Char) : Nat :=
  lastSemiLoop s 0 s.length

/-- The substring `v.mid( i+1 )` handed to Date::setRfc822. -/
def extractAfterSemi (s : List Char) : List Char :=
  s.drop (lastSemi s + 1)

/-- The claim's wording: the substring of the value after its last
semicolon. -/
def specAfterLastSemi (s : List Char) : List Char :=
  (s.reverse.takeWhile (fun c => c ≠ ';')).reverse

/-- One header field as internalDate reads it: whether its type is
Received, and its value. -/
structure HField where
  isReceived : Bool
  value : List Char
deriving DecidableEq, Repr

/-- The message data internalDate consults: the explicit internal date
(0 when unset), the header fields in order, and the parsed Date header
as a Unix time, if any. -/
structure MessageM where
  explicitDate : Nat
  fields : List HField
  headerDate : Option Nat
deriving DecidableEq, Repr

/-- The Received-header scan of Injector::internalDate: the loop runs
until a valid date has been obtained, so the first Received field whose
extracted tail parses wins.  `parse` is Date::setRfc822 (an external
collaborator): the Unix time when the string is a valid date. -/
def receivedDeduced (parse : List Char → Option Nat) :
    List HField → Option Nat
  | [] => none
  | f :: fs =>
    if f.isReceived then
      match parse (extractAfterSemi f.value) with
      | some t => some t
      | none => receivedDeduced parse fs
    else
      receivedDeduced parse fs

/-- Injector::internalDate: the explicit date when set; else the date
derived from the Received fields; else the Date header's Unix time;
else the current time `now`. -/
def internalDate (parse : List Char → Option Nat) (now : Nat)
    (m : MessageM) : Nat :=
  if m.explicitDate ≠ 0 then
    m.explicitDate
  else
    match receivedDeduced parse m.fields with
    | some t => t
    | none =>
      match m.headerDate with
      | some t => t
      | none => now

/- ===================================================================
   Theorems settling the claims
   =================================================================== -/

/-- C8: in the SMTP/LMTP Body state, after trailing CR/LF removal, a
line that is exactly one '.' triggers injection without joining the
body; any other line beginning with '.' joins the body with the leading
dot removed and CRLF restored; every remaining line joins unchanged
with CRLF restored. -/
theorem smtp_body_dot_stuffing (body line : List Char) :
    (stripCrLf line = ['.'] → smtpBody body line = (body, true)) ∧
    (stripCrLf line ≠ ['.'] → charAt (stripCrLf line) 0 = '.' →
      smtpBody body line =
        (body ++ (stripCrLf line).drop 1 ++ chars "\r\n", false)) ∧
    (charAt (stripCrLf line) 0 ≠ '.' →
      smtpBody body line = (body ++ stripCrLf line ++ chars "\r\n", false)) := by
  refine ⟨?_, ?_, ?_⟩
  · intro h
    simp [smtpBody, h, charAt]
  · intro hne hdot
    have hcond : ¬ ((stripCrLf line).length = 1 ∧ charAt (stripCrLf line) 0 = '.') := by
      rintro ⟨hl, hc⟩
      rcases List.length_eq_one.mp hl with ⟨c, hcc⟩
      apply hne
      rw [hcc] at hc ⊢
      simpa [charAt] using hc
    have hlen : ¬ (stripCrLf line).length = 1 := fun hl => hcond ⟨hl, hdot⟩
    simp [smtpBody, hlen, hdot]
  · intro hdot
    have hcond : ¬ ((stripCrLf line).length = 1 ∧ charAt (stripCrLf line) 0 = '.') := by
      rintro ⟨_, hc⟩
      exact hdot hc
    simp [smtpBody, hcond, hdot]

/-- Witness for C8, at the lines ".", "..a" and "hi" (each CRLF
terminated). -/
theorem smtp_body_dot_stuffing_witness :
    smtpBody (chars "x") (chars ".\r\n") = (chars "x", true) ∧
    smtpBody (chars "x") (chars "..a\r\n") =
      (chars "x" ++ (stripCrLf (chars "..a\r\n")).drop 1 ++ chars "\r\n", false) ∧
    smtpBody (chars "x") (chars "hi\r\n") =
      (chars "x" ++ stripCrLf (chars "hi\r\n") ++ chars "\r\n", false) :=
  ⟨(smtp_body_dot_stuffing (chars "x") (chars ".\r\n")).1 (by decide),
   (smtp_body_dot_stuffing (chars "x") (chars "..a\r\n")).2.1 (by decide) (by decide),
   (smtp_body_dot_stuffing (chars "x") (chars "hi\r\n")).2.2 (by decide)⟩

/-- C5 counterexample: with one pending query and the endpoint a Unix
socket under the expected root, the code neither logs a disaster (the
source's condition is the negation of the claim's) nor sets the exact
error string the claim names (the source string ends in a period). -/
theorem pool_empty_claim_false :
    ¬ ((removeHandle 0 [⟨none, false⟩]
          ⟨true, chars "/var/run/db.sock"⟩ (chars "/var/run/")).2 = true) ∧
    ¬ ((removeHandle 0 [⟨none, false⟩]
          ⟨true, chars "/var/run/db.sock"⟩ (chars "/var/run/")).1 =
        [⟨some "No available database handles", true⟩]) := by
  constructor <;> decide

/-- C5 (amended): when the last handle is removed, every pending query
has its error set to "No available database handles." and is notified
individually, and a disaster is logged exactly when the endpoint is a
Unix socket whose address is not under the expected root. -/
theorem pool_empty_failure (remaining : Nat) (queries : List PoolQuery)
    (srv : EndpointM) (root : List Char) :
    (remaining ≠ 0 → removeHandle remaining queries srv root = (queries, false)) ∧
    (remaining = 0 →
      (removeHandle remaining queries srv root).1 =
        queries.map (fun q =>
          { q with error := some "No available database handles.",
                   notified := true }) ∧
      ((removeHandle remaining queries srv root).2 = true ↔
        srv.unix = true ∧ startsWithL srv.address root = false)) := by
  refine ⟨fun h => ?_, fun h => ?_⟩
  · simp [removeHandle, h]
  · subst h
    refine ⟨by simp [removeHandle], ?_⟩
    simp [removeHandle, Bool.and_eq_true, Bool.not_eq_true']

/-- Witness for C5 (amended), at a nonempty pool, and at an emptied
pool whose Unix endpoint lies outside the expected root. -/
theorem pool_empty_failure_witness :
    removeHandle 1 [] ⟨false, []⟩ [] = ([], false) ∧
    (removeHandle 0 [⟨none, false⟩]
       ⟨true, chars "/tmp/db.sock"⟩ (chars "/var/run/")).2 = true :=
  ⟨(pool_empty_failure 1 [] ⟨false, []⟩ []).1 (by decide),
   ((pool_empty_failure 0 [⟨none, false⟩]
       ⟨true, chars "/tmp/db.sock"⟩ (chars "/var/run/")).2
      rfl).2.mpr (by decide)⟩

/-- C10: the exact input line "quit" is rewritten to "arnt logout"
before parsing, so it parses as the command "logout" with tag "arnt",
whereas the unrewritten line "quit" would fail to parse (no space and
command word follow the tag). -/
theorem quit_rewritten_to_logout :
    addCommandParse (chars "quit") = some (chars "arnt", chars "logout") ∧
    parseTagCommand (chars "quit") = none := by
  constructor <;> decide

/-- C7: a RCPT TO in the recipient-legal state with a syntactically
valid address starts a User lookup (and only then); in that state 550
is answered exactly for unparsable or invalid addresses; the recipient
is appended to the list iff the lookup found a valid user, answered
250, and 550 is answered otherwise. -/
theorem rcpt_user_verification (st : SmtpState) (parsed : Option AddrM)
    (a : AddrM) (userValid : Bool) :
    (smtpRcpt st parsed = RcptAct.lookup a ↔
      st = SmtpState.rcptTo ∧ parsed = some a ∧ a.valid = true) ∧
    (st = SmtpState.rcptTo →
      (smtpRcpt st parsed = RcptAct.reject550 ↔
        parsed = none ∨ ∃ b, parsed = some b ∧ b.valid = false)) ∧
    ((smtpRcptAnswer st a userValid).1 = true ↔ userValid = true) ∧
    (userValid = true →
      smtpRcptAnswer st a userValid = (true, 250, SmtpState.data)) ∧
    (userValid = false →
      smtpRcptAnswer st a userValid = (false, 550, st)) := by
  refine ⟨?_, ?_, ?_, ?_, ?_⟩
  · constructor
    · intro h
      by_cases hst : st = SmtpState.rcptTo
      · subst hst
        cases parsed with
        | none => simp [smtpRcpt] at h
        | some b =>
          by_cases hv : b.valid = true
          · simp [smtpRcpt, hv] at h
            cases h
            exact ⟨rfl, rfl, hv⟩
          · simp [smtpRcpt, Bool.eq_false_iff.mpr hv] at h
      · simp [smtpRcpt, hst] at h
    · rintro ⟨hst, hp, hv⟩
      subst hst; subst hp
      simp [smtpRcpt, hv]
  · intro hst
    subst hst
    constructor
    · intro h
      cases parsed with
      | none => exact Or.inl rfl
      | some b =>
        by_cases hv : b.valid = true
        · simp [smtpRcpt, hv] at h
        · exact Or.inr ⟨b, rfl, Bool.eq_false_iff.mpr hv⟩
    · rintro (h | ⟨b, hp, hv⟩)
      · subst h; simp [smtpRcpt]
      · subst hp; simp [smtpRcpt, hv]
  · cases userValid <;> simp [smtpRcptAnswer]
  · intro h; subst h; simp [smtpRcptAnswer]
  · intro h; subst h; simp [smtpRcptAnswer]

/-- Witness for C7, at a valid address whose user lookup succeeds and
at one whose lookup fails. -/
theorem rcpt_user_verification_witness :
    smtpRcpt SmtpState.rcptTo (some ⟨"u", "d", true⟩) =
      RcptAct.lookup ⟨"u", "d", true⟩ ∧
    smtpRcptAnswer SmtpState.rcptTo ⟨"u", "d", true⟩ true =
      (true, 250, SmtpState.data) ∧
    smtpRcptAnswer SmtpState.rcptTo ⟨"u", "d", true⟩ false =
      (false, 550, SmtpState.rcptTo) :=
  ⟨(rcpt_user_verification SmtpState.rcptTo (some ⟨"u", "d", true⟩)
      ⟨"u", "d", true⟩ true).1.mpr ⟨rfl, rfl, rfl⟩,
   (rcpt_user_verification SmtpState.rcptTo none ⟨"u", "d", true⟩ true).2.2.2.1 rfl,
   (rcpt_user_verification SmtpState.rcptTo none ⟨"u", "d", true⟩ false).2.2.2.2 rfl⟩

/-- C6: the source's storage decision coincides with the claim's rules
for every content type; an INSERT/SELECT pair exists exactly for
bodyparts that store something; and both queries are keyed by the MD5
hash of the stored bytes (the data column when data is stored, the
text column otherwise). -/
theorem bodypart_storage_rules (md5 : String → String) (b : BodypartM) :
    storeChoice b.ct = claimStoreChoice b.ct ∧
    ((setupBodypart md5 b).isSome = true ↔
      ((storeChoice b.ct).1 = true ∨ (storeChoice b.ct).2 = true)) ∧
    (∀ ins, setupBodypart md5 b = some ins →
      ins.selectHash = ins.hash ∧
      ins.hash = md5 (ins.dataCol.getD (ins.textCol.getD ""))) := by
  refine ⟨?_, ?_, ?_⟩
  · cases hct : b.ct with
    | none => simp [storeChoice, claimStoreChoice]
    | some c =>
      simp only [storeChoice, claimStoreChoice]
      by_cases h1 : c.ctype = "text"
      · simp [h1]
      · by_cases h2 : c.ctype = "multipart" ∧ c.subtype ≠ "signed" <;>
          by_cases h3 : c.ctype = "message" ∧ c.subtype = "rfc822" <;>
            simp [h1, h2, h3]
  · rcases hsc : storeChoice b.ct with ⟨st, sd⟩
    cases st <;> cases sd <;> simp [setupBodypart, hsc]
  · intro ins hins
    rcases hsc : storeChoice b.ct with ⟨st, sd⟩
    rw [setupBodypart, hsc] at hins
    cases st <;> cases sd <;> simp_all <;> simp [← hins]

/-- Witness for C6, at a text/html bodypart: the pair exists, with the
hash taken over the stored data column. -/
theorem bodypart_storage_rules_witness :
    setupBodypart (fun s => "H" ++ s) ⟨some ⟨"text", "html"⟩, "TS", "RD", "HT", 5⟩ =
      some ⟨"HTS", 5, some "HT", some "TS", "HTS"⟩ ∧
    ("HTS" : String) = "H" ++ ((some "TS" : Option String).getD
      ((some "HT" : Option String).getD "")) :=
  ⟨by decide,
   ((bodypart_storage_rules (fun s => "H" ++ s)
      ⟨some ⟨"text", "html"⟩, "TS", "RD", "HT", 5⟩).2.2
      ⟨"HTS", 5, some "HT", some "TS", "HTS"⟩ (by decide)).2⟩

/-- The emitted-flag list of a prefix is the prefix of the emitted-flag
list. -/
theorem emitPhase_take (emit : CmdM → CmdState) :
    ∀ (cs : List CmdM) (deferred : Bool) (k : Nat),
      emitPhase emit (cs.take k) deferred = (emitPhase emit cs deferred).take k := by
  intro cs
  induction cs with
  | nil => intro deferred k; simp [emitPhase]
  | cons c cs ih =>
    intro deferred k
    cases k with
    | zero => simp [emitPhase]
    | succ k =>
      by_cases hcond : c.state = CmdState.finished ∧ (deferred = false ∨ c.ok = false)
      · simp [emitPhase, hcond, ih]
      · simp [emitPhase, hcond, ih]

/-- Position-wise characterisation of the emission pass: the command at
position `k` is emitted exactly when it is Finished and either carries
an error or no earlier attempted command has been left Finished. -/
theorem emitPhase_flag (emit : CmdM → CmdState) (d : CmdM) :
    ∀ (cs : List CmdM) (deferred : Bool) (k : Nat), k < cs.length →
      (((emitPhase emit cs deferred).map (fun p => p.2)).getD k false = true ↔
        ((cs.getD k d).state = CmdState.finished ∧
          ((cs.getD k d).ok = false ∨
            deferredAfter emit (cs.take k) deferred = false))) := by
  intro cs
  induction cs with
  | nil => intro deferred k hk; simp at hk
  | cons c cs ih =>
    intro deferred k hk
    by_cases hcond : c.state = CmdState.finished ∧ (deferred = false ∨ c.ok = false)
    · cases k with
      | zero =>
        simp only [emitPhase, if_pos hcond, List.map_cons, List.getD_cons_zero,
                   List.take_zero, deferredAfter]
        exact ⟨fun _ => ⟨hcond.1, Or.symm hcond.2⟩, fun _ => trivial⟩
      | succ k =>
        have hk' : k < cs.length := by simpa using hk
        simp only [emitPhase, if_pos hcond, List.map_cons, List.getD_cons_succ,
                   List.take_succ_cons, deferredAfter, List.getD_cons_succ]
        rw [ih _ k hk']
    · cases k with
      | zero =>
        simp only [emitPhase, if_neg hcond, List.map_cons, List.getD_cons_zero,
                   List.take_zero, deferredAfter]
        constructor
        · intro h; simp at h
        · rintro ⟨hfin, hor⟩
          exact absurd ⟨hfin, Or.symm hor⟩ hcond
      | succ k =>
        have hk' : k < cs.length := by simpa using hk
        simp only [emitPhase, if_neg hcond, List.map_cons, List.getD_cons_succ,
                   List.take_succ_cons, deferredAfter, List.getD_cons_succ]
        rw [ih _ k hk']

/-- The deferredResponse flag set during the pass holds exactly when
some attempted command was left in the Finished state. -/
theorem deferredAfter_exists (emit : CmdM → CmdState) (d : CmdM) :
    ∀ (cs : List CmdM) (deferred : Bool),
      deferredAfter emit cs deferred = true ↔
        (deferred = true ∨ ∃ j, j < cs.length ∧
          ((emitPhase emit cs deferred).map (fun p => p.2)).getD j false = true ∧
          emit (cs.getD j d) = CmdState.finished) := by
  intro cs
  induction cs with
  | nil => intro deferred; simp [deferredAfter]
  | cons c cs ih =>
    intro deferred
    by_cases hcond : c.state = CmdState.finished ∧ (deferred = false ∨ c.ok = false)
    · rw [deferredAfter, if_pos hcond, ih]
      constructor
      · rintro (hd | ⟨j, hj, hflag, hfin⟩)
        · rcases Bool.or_eq_true_iff.mp hd with hd | hd
          · exact Or.inl hd
          · refine Or.inr ⟨0, by simp, ?_, by simpa using of_decide_eq_true hd⟩
            simp [emitPhase, hcond]
        · exact Or.inr ⟨j + 1, by simpa using hj, by
            simpa [emitPhase, hcond] using hflag, by simpa using hfin⟩
      · rintro (hd | ⟨j, hj, hflag, hfin⟩)
        · exact Or.inl (by simp [hd])
        · cases j with
          | zero =>
            simp only [List.getD_cons_zero] at hfin
            exact Or.inl (by simp [hfin])
          | succ j =>
            refine Or.inr ⟨j, by simpa using hj, ?_, by simpa using hfin⟩
            simpa [emitPhase, hcond] using hflag
    · rw [deferredAfter, if_neg hcond, ih]
      constructor
      · rintro (hd | ⟨j, hj, hflag, hfin⟩)
        · exact Or.inl hd
        · exact Or.inr ⟨j + 1, by simpa using hj, by
            simpa [emitPhase, hcond] using hflag, by simpa using hfin⟩
      · rintro (hd | ⟨j, hj, hflag, hfin⟩)
        · exact Or.inl hd
        · cases j with
          | zero =>
            simp [emitPhase, hcond] at hflag
          | succ j =>
            refine Or.inr ⟨j, by simpa using hj, ?_, by simpa using hfin⟩
            simpa [emitPhase, hcond] using hflag

/-- Reading inside a prefix is reading the original list. -/
theorem getD_take_lt {α : Type} : ∀ (l : List α) (k j : Nat) (d : α), j < k →
    (l.take k).getD j d = l.getD j d := by
  intro l
  induction l with
  | nil => intro k j d _; simp
  | cons x xs ih =>
    intro k j d hjk
    cases k with
    | zero => exact absurd hjk (Nat.not_lt_zero j)
    | succ k =>
      cases j with
      | zero => rfl
      | succ j => simpa using ih k j d (Nat.lt_of_succ_lt_succ hjk)

/-- C4: during one scheduling pass the responses of Finished commands
are attempted in arrival order; the command at position k has its
responses emitted exactly when it is Finished and either its state is
not ok (an error response) or no earlier command was left Finished
after its responses were attempted; and such a deferral before k holds
exactly when some earlier emitted command remained Finished. -/
theorem response_emission_order (emit : CmdM → CmdState) (cs : List CmdM)
    (k : Nat) (hk : k < cs.length) :
    (((emitPhase emit cs false).map (fun p => p.2)).getD k false = true ↔
      ((cs.getD k ⟨CmdState.retired, true⟩).state = CmdState.finished ∧
        ((cs.getD k ⟨CmdState.retired, true⟩).ok = false ∨
          deferredAfter emit (cs.take k) false = false))) ∧
    (deferredAfter emit (cs.take k) false = true ↔
      ∃ j, j < k ∧
        ((emitPhase emit cs false).map (fun p => p.2)).getD j false = true ∧
        emit (cs.getD j ⟨CmdState.retired, true⟩) = CmdState.finished) := by
  constructor
  · exact emitPhase_flag emit ⟨CmdState.retired, true⟩ cs false k hk
  · rw [deferredAfter_exists emit ⟨CmdState.retired, true⟩ (cs.take k) false]
    have hlen : (cs.take k).length = k := by
      rw [List.length_take]
      exact Nat.min_eq_left (Nat.le_of_lt hk)
    constructor
    · rintro (h | ⟨j, hj, hflag, hfin⟩)
      · simp at h
      · rw [hlen] at hj
        refine ⟨j, hj, ?_, ?_⟩
        · rw [emitPhase_take, List.map_take, getD_take_lt _ _ _ _ hj] at hflag
          exact hflag
        · rw [getD_take_lt _ _ _ _ hj] at hfin
          exact hfin
    · rintro ⟨j, hj, hflag, hfin⟩
      refine Or.inr ⟨j, ?_, ?_, ?_⟩
      · rw [hlen]; exact hj
      · rw [emitPhase_take, List.map_take, getD_take_lt _ _ _ _ hj]
        exact hflag
      · rw [getD_take_lt _ _ _ _ hj]
        exact hfin

/-- Witness for C4: in a pass over an ok Finished command, an error
Finished command and another ok Finished command, the error command at
position 1 is emitted. -/
theorem response_emission_order_witness :
    ((emitPhase
        (fun c => if c.ok = true then CmdState.retired else CmdState.finished)
        [⟨CmdState.finished, true⟩, ⟨CmdState.finished, false⟩,
         ⟨CmdState.finished, true⟩] false).map (fun p => p.2)).getD 1 false
      = true :=
  (response_emission_order
      (fun c => if c.ok = true then CmdState.retired else CmdState.finished)
      [⟨CmdState.finished, true⟩, ⟨CmdState.finished, false⟩,
       ⟨CmdState.finished, true⟩] 1 (by decide)).1.mpr (by decide)

/-- C1: for every target mailbox, in list order, a lockUidnext SELECT
(FOR UPDATE) is enqueued with the mailbox id bound; the assigned UID
and modseq are the fetched uidnext and nextmodseq; the enqueued UPDATE
increments first_recent as well iff the fetched uidnext equals the
fetched first_recent and the mailbox has a live session, and exactly
when uidnext equals first_recent the first live session (if any) is
recorded to receive the message as Recent. -/
theorem uid_assignment (ms : List MailboxM) (rs : List MailboxRow)
    (hlen : rs.length = ms.length) (k : Nat) (hk : k < ms.length) :
    (selectUidsQueries ms).getD k ("", 0) =
      (lockUidnextSql, (ms.getD k ⟨0, []⟩).mid) ∧
    (uidFetcherRun ms rs).1.getD k ⟨0, 0, none⟩ =
      ⟨(rs.getD k ⟨0, 0, 0⟩).uidnext, (rs.getD k ⟨0, 0, 0⟩).nextmodseq,
        if (rs.getD k ⟨0, 0, 0⟩).uidnext = (rs.getD k ⟨0, 0, 0⟩).firstRecent
        then (ms.getD k ⟨0, []⟩).sessions.head? else none⟩ ∧
    (uidFetcherRun ms rs).2.getD k ("", 0) =
      ((if (rs.getD k ⟨0, 0, 0⟩).uidnext = (rs.getD k ⟨0, 0, 0⟩).firstRecent ∧
           (ms.getD k ⟨0, []⟩).sessions ≠ []
        then incrUidnextWithRecentSql else incrUidnextSql),
       (ms.getD k ⟨0, []⟩).mid) := by
  induction ms generalizing rs k with
  | nil => simp at hk
  | cons m ms ih =>
    cases rs with
    | nil => simp at hlen
    | cons r rs =>
      have hlen' : rs.length = ms.length := by simpa using hlen
      cases k with
      | zero =>
        refine ⟨by simp [selectUidsQueries], ?_, ?_⟩
        · by_cases heq : r.uidnext = r.firstRecent
          · cases hs : m.sessions with
            | nil => simp [uidFetcherRun, processUidRow, heq, hs]
            | cons s tail => simp [uidFetcherRun, processUidRow, heq, hs]
          · simp [uidFetcherRun, processUidRow, heq]
        · by_cases heq : r.uidnext = r.firstRecent
          · cases hs : m.sessions with
            | nil => simp [uidFetcherRun, processUidRow, heq, hs]
            | cons s tail => simp [uidFetcherRun, processUidRow, heq, hs]
          · simp [uidFetcherRun, processUidRow, heq]
      | succ k =>
        have hk' : k < ms.length := by simpa using hk
        have hih := ih rs hlen' k hk'
        refine ⟨?_, ?_, ?_⟩
        · simpa [selectUidsQueries] using hih.1
        · simpa [uidFetcherRun] using hih.2.1
        · simpa [uidFetcherRun] using hih.2.2

/-- Witness for C1, at two mailboxes: the first hits its first_recent
UID with a live session and receives the with-recent UPDATE; the
second has no session and receives the plain UPDATE. -/
theorem uid_assignment_witness :
    (selectUidsQueries [⟨3, [11, 12]⟩, ⟨5, []⟩]).getD 0 ("", 0) =
      (lockUidnextSql, 3) ∧
    (uidFetcherRun [⟨3, [11, 12]⟩, ⟨5, []⟩]
       [⟨10, 100, 10⟩, ⟨20, 200, 19⟩]).1.getD 0 ⟨0, 0, none⟩ =
      ⟨10, 100, some 11⟩ ∧
    (uidFetcherRun [⟨3, [11, 12]⟩, ⟨5, []⟩]
       [⟨10, 100, 10⟩, ⟨20, 200, 19⟩]).2.getD 0 ("", 0) =
      (incrUidnextWithRecentSql, 3) ∧
    (uidFetcherRun [⟨3, [11, 12]⟩, ⟨5, []⟩]
       [⟨10, 100, 10⟩, ⟨20, 200, 19⟩]).2.getD 1 ("", 0) =
      (incrUidnextSql, 5) := by
  have h0 := uid_assignment [⟨3, [11, 12]⟩, ⟨5, []⟩]
    [⟨10, 100, 10⟩, ⟨20, 200, 19⟩] (by decide) 0 (by decide)
  have h1 := uid_assignment [⟨3, [11, 12]⟩, ⟨5, []⟩]
    [⟨10, 100, 10⟩, ⟨20, 200, 19⟩] (by decide) 1 (by decide)
  refine ⟨h0.1, ?_, ?_, ?_⟩
  · rw [h0.2.1]; decide
  · rw [h0.2.2]; decide
  · rw [h1.2.2]; decide

/-- The transcript shape asserted by the claim (stated in the claim's
words, for comparison with `bidFetcherRun`): for each storable
bodypart, taken in order with n counting up from 0, a savepoint named
a&lt;n&gt;, then the allowFailure INSERT, then a ROLLBACK TO that savepoint
exactly when the INSERT failed, then the SELECT of the id by hash. -/
def bidSpecTranscript (db : BodypartsDb) (sp : Nat) :
    List (Option String) → List TxQuery
  | [] => []
  | none :: rest => bidSpecTranscript db sp rest
  | some h :: rest =>
    ([TxQuery.plain ("savepoint a" ++ Nat.repr sp),
      TxQuery.insertBodypart h true] ++
     (if (dbLookup db h).isSome then
        [TxQuery.plain ("rollback to a" ++ Nat.repr sp)]
      else []) ++
     [TxQuery.selectBodypart h]) ++
    bidSpecTranscript
      (if (dbLookup db h).isSome then db
       else ⟨(h, db.nextId) :: db.rows, db.nextId + 1⟩) (sp + 1) rest

/-- Generalised invariant of the BidFetcher: the transcript follows the
savepoint/INSERT/ROLLBACK/SELECT pattern, and when every id in the
table is positive and the serial counter is positive, every storable
bodypart ends with a positive bid while unstorable ones get none. -/
theorem bidFetcherRun_spec (parts : List (Option String)) :
    ∀ (db : BodypartsDb) (sp : Nat),
      (∀ p ∈ db.rows, 1 ≤ p.2) → 1 ≤ db.nextId →
      ((bidFetcherRun db sp parts).2.1 = bidSpecTranscript db sp parts ∧
       (∀ k h, parts.getD k none = some h →
         ∃ i, (bidFetcherRun db sp parts).2.2.getD k none = some i ∧ 1 ≤ i) ∧
       (∀ k, parts.getD k none = none →
         (bidFetcherRun db sp parts).2.2.getD k none = none)) := by
  induction parts with
  | nil =>
    intro db sp hpos hnext
    refine ⟨rfl, ?_, ?_⟩
    · intro k h hk
      simp at hk
    · intro k _
      simp [bidFetcherRun]
  | cons p rest ih =>
    intro db sp hpos hnext
    cases p with
    | none =>
      have hih := ih db sp hpos hnext
      refine ⟨?_, ?_, ?_⟩
      · simpa [bidFetcherRun, bidSpecTranscript] using hih.1
      · intro k h hk
        cases k with
        | zero => simp at hk
        | succ k =>
          have hx := hih.2.1 k h (by simpa using hk)
          simpa [bidFetcherRun] using hx
      · intro k hk
        cases k with
        | zero => simp [bidFetcherRun]
        | succ k =>
          have hx := hih.2.2 k (by simpa using hk)
          simpa [bidFetcherRun] using hx
    | some h =>
      cases hlook : dbLookup db h with
      | some oldId =>
        have hold : 1 ≤ oldId := by
          rcases Option.map_eq_some'.mp hlook with ⟨pr, hfind, hpr⟩
          have hmem := List.mem_of_find?_eq_some hfind
          exact hpr ▸ hpos pr hmem
        have hih := ih db (sp + 1) hpos hnext
        refine ⟨?_, ?_, ?_⟩
        · simp [bidFetcherRun, bidSpecTranscript, hlook, hih.1]
        · intro k h' hk
          cases k with
          | zero =>
            refine ⟨oldId, ?_, hold⟩
            simp [bidFetcherRun, hlook]
          | succ k =>
            have hx := hih.2.1 k h' (by simpa using hk)
            simpa [bidFetcherRun, hlook] using hx
        · intro k hk
          cases k with
          | zero => simp at hk
          | succ k =>
            have hx := hih.2.2 k (by simpa using hk)
            simpa [bidFetcherRun, hlook] using hx
      | none =>
        have hpos' : ∀ p ∈ ((h, db.nextId) :: db.rows : List (String × Nat)),
            1 ≤ p.2 := by
          intro p hp
          rcases List.mem_cons.mp hp with rfl | hp
          · exact hnext
          · exact hpos p hp
        have hnext' : 1 ≤ db.nextId + 1 := Nat.le_succ_of_le hnext
        have hih := ih ⟨(h, db.nextId) :: db.rows, db.nextId + 1⟩ (sp + 1)
          hpos' hnext'
        refine ⟨?_, ?_, ?_⟩
        · simp [bidFetcherRun, bidSpecTranscript, hlook, hih.1]
        · intro k h' hk
          cases k with
          | zero =>
            refine ⟨db.nextId, ?_, hnext⟩
            simp [bidFetcherRun, hlook]
          | succ k =>
            have hx := hih.2.1 k h' (by simpa using hk)
            simpa [bidFetcherRun, hlook] using hx
        · intro k hk
          cases k with
          | zero => simp at hk
          | succ k =>
            have hx := hih.2.2 k (by simpa using hk)
            simpa [bidFetcherRun, hlook] using hx

/-- C2: for every storable bodypart, in order, the BidFetcher issues
inside a fresh savepoint a&lt;n&gt; (n counting from 0) an allowFailure
INSERT into bodyparts, a ROLLBACK TO that savepoint exactly when the
INSERT failed, and then the SELECT of the id by hash; when the phase
completes, every storable bodypart carries a nonzero database id,
freshly created or pre-existing, and unstorable ones carry none. -/
theorem bodypart_dedup_savepoints (db : BodypartsDb)
    (parts : List (Option String))
    (hpos : ∀ p ∈ db.rows, 1 ≤ p.2) (hnext : 1 ≤ db.nextId) :
    (bidFetcherRun db 0 parts).2.1 = bidSpecTranscript db 0 parts ∧
    (∀ k h, parts.getD k none = some h →
      ∃ i, (bidFetcherRun db 0 parts).2.2.getD k none = some i ∧ 1 ≤ i) ∧
    (∀ k, parts.getD k none = none →
      (bidFetcherRun db 0 parts).2.2.getD k none = none) :=
  bidFetcherRun_spec parts db 0 hpos hnext

/-- Witness for C2, over a table holding hash h1 with id 7: injecting
parts with hashes h1 (a dedup conflict), an unstorable part, and a
fresh h2. -/
theorem bodypart_dedup_savepoints_witness :
    (bidFetcherRun ⟨[("h1", 7)], 9⟩ 0 [some "h1", none, some "h2"]).2.1 =
      bidSpecTranscript ⟨[("h1", 7)], 9⟩ 0 [some "h1", none, some "h2"] ∧
    ∃ i, (bidFetcherRun ⟨[("h1", 7)], 9⟩ 0
            [some "h1", none, some "h2"]).2.2.getD 2 none = some i ∧ 1 ≤ i := by
  have hmain := bodypart_dedup_savepoints ⟨[("h1", 7)], 9⟩
    [some "h1", none, some "h2"] (by decide) (by decide)
  exact ⟨hmain.1, hmain.2.1 2 "h2" (by decide)⟩

/-- Indexing past an appended prefix indexes the suffix. -/
theorem charAt_append (a b : List Char) (k : Nat) :
    charAt (a ++ b) (a.length + k) = charAt b k := by
  induction a with
  | nil => simp [charAt]
  | cons x xs ih =>
    have harith : xs.length + 1 + k = (xs.length + k) + 1 := by omega
    simp only [List.cons_append, List.length_cons, charAt, harith,
               List.getD_cons_succ]
    exact ih

/-- Indexing inside an appended prefix indexes the prefix. -/
theorem charAt_append_left (a b : List Char) (k : Nat) (hk : k < a.length) :
    charAt (a ++ b) k = charAt a k := by
  induction a generalizing k with
  | nil => simp at hk
  | cons x xs ih =>
    cases k with
    | zero => rfl
    | succ k =>
      have hk' : k < xs.length := by simpa using hk
      simpa [charAt] using ih k hk'

/-- The digit scan does not move off a non-digit. -/
theorem scanDigitsDown_stop (s : List Char) (p : Nat)
    (hp : ¬ ('0' ≤ charAt s p ∧ charAt s p ≤ '9')) :
    scanDigitsDown s p = p := by
  cases p with
  | zero => rfl
  | succ p => simp [scanDigitsDown, hp]

/-- The digit scan walks down a run of digits and stops just above the
first non-digit below the run. -/
theorem scanDigitsDown_run (s : List Char) (p : Nat)
    (hp : ¬ ('0' ≤ charAt s p ∧ charAt s p ≤ '9')) :
    ∀ k, (∀ t, 1 ≤ t → t ≤ k →
        ('0' ≤ charAt s (p + t) ∧ charAt s (p + t) ≤ '9')) →
      scanDigitsDown s (p + k) = p := by
  intro k
  induction k with
  | zero =>
    intro _
    simpa using scanDigitsDown_stop s p hp
  | succ k ih =>
    intro hds
    have hd : '0' ≤ charAt s (p + (k + 1)) ∧ charAt s (p + (k + 1)) ≤ '9' :=
      hds (k + 1) (by omega) (Nat.le_refl _)
    have harith : p + (k + 1) = (p + k) + 1 := by omega
    rw [harith] at hd
    rw [harith]
    simp only [scanDigitsDown, if_pos hd]
    exact ih (fun t ht1 ht2 => hds t ht1 (by omega))

/-- Head and successor reading of charAt. -/
theorem charAt_cons_succ (c : Char) (l : List Char) (k : Nat) :
    charAt (c :: l) (k + 1) = charAt l k := by
  simp [charAt]

/-- A character read inside the bounds of a list is one of its
elements. -/
theorem charAt_mem : ∀ (s : List Char) (i : Nat), i < s.length →
    charAt s i ∈ s := by
  intro s
  induction s with
  | nil => intro i hi; simp at hi
  | cons x xs ih =>
    intro i hi
    cases i with
    | zero => exact List.mem_cons_self _ _
    | succ i =>
      have : charAt (x :: xs) (i + 1) = charAt xs i := charAt_cons_succ x xs i
      rw [this]
      exact List.mem_cons_of_mem _ (ih i (by simpa using hi))

/-- Evaluation of endsWithLiteral on a line ending in a literal: for a
nonempty digit string ds whose value fits in 32 bits (and a line short
enough for the unsigned index arithmetic never to wrap), a trailing
"&#123;ds&#125;" yields (value, false) and a trailing "&#123;ds+&#125;"
yields (value, true). -/
theorem endsWithLiteral_shape (pre ds : List Char)
    (hne : ds ≠ [])
    (hds : ∀ c ∈ ds, '0' ≤ c ∧ c ≤ '9')
    (hlt : digitVal ds < 4294967296)
    (hlen : pre.length + ds.length ≤ 4294967293) :
    endsWithLiteral (pre ++ '{' :: (ds ++ ['}'])) = some (digitVal ds, false) ∧
    endsWithLiteral (pre ++ '{' :: (ds ++ ['+', '}'])) = some (digitVal ds, true) := by
  have hD1 : 1 ≤ ds.length := List.length_pos.mpr hne
  have hnum : strNumber ds = some (digitVal ds) := by
    rw [strNumber, if_pos, if_pos hlt]
    refine ⟨hne, ?_⟩
    rw [List.all_eq_true]
    intro c hc
    exact decide_eq_true (hds c hc)
  constructor
  · set s := pre ++ '{' :: (ds ++ ['}']) with hs
    have hlast : s.getLast? = some '}' := by
      rw [hs, show pre ++ '{' :: (ds ++ ['}']) = (pre ++ '{' :: ds) ++ ['}'] by simp]
      exact List.getLast?_concat _
    have hLen : s.length = pre.length + ds.length + 2 := by
      rw [hs]; simp; omega
    have hi0 : (s.length + 4294967294) % 4294967296 = pre.length + ds.length := by
      rw [hLen]
      have harith : pre.length + ds.length + 2 + 4294967294 =
          pre.length + ds.length + 1 * 4294967296 := by omega
      rw [harith, Nat.add_mul_mod_self_right]
      exact Nat.mod_eq_of_lt (by omega)
    have hchar_i0 : charAt s (pre.length + ds.length) = charAt ds (ds.length - 1) := by
      rw [hs, show pre ++ '{' :: (ds ++ ['}']) = (pre ++ ['{']) ++ (ds ++ ['}']) by simp]
      have h1 : pre.length + ds.length = (pre ++ ['{']).length + (ds.length - 1) := by
        simp; omega
      rw [h1, charAt_append]
      exact charAt_append_left ds ['}'] (ds.length - 1) (by omega)
    have hdig0 : '0' ≤ charAt ds (ds.length - 1) ∧ charAt ds (ds.length - 1) ≤ '9' :=
      hds _ (charAt_mem ds (ds.length - 1) (by omega))
    have hplus : charAt s (pre.length + ds.length) ≠ '+' := by
      rw [hchar_i0]
      intro heq
      rw [heq] at hdig0
      exact absurd hdig0.1 (by decide)
    have hbrace : charAt s pre.length = '{' := by
      rw [hs]
      have h0 := charAt_append pre ('{' :: (ds ++ ['}'])) 0
      simpa using h0
    have hnotdig : ¬ ('0' ≤ charAt s pre.length ∧ charAt s pre.length ≤ '9') := by
      rw [hbrace]; decide
    have hdigits : ∀ t, 1 ≤ t → t ≤ ds.length →
        ('0' ≤ charAt s (pre.length + t) ∧ charAt s (pre.length + t) ≤ '9') := by
      intro t ht1 ht2
      have hv : charAt s (pre.length + t) = charAt ds (t - 1) := by
        rw [hs, charAt_append pre ('{' :: (ds ++ ['}'])) t]
        rw [show t = (t - 1) + 1 by omega, charAt_cons_succ]
        exact charAt_append_left ds ['}'] (t - 1) (by omega)
      rw [hv]
      exact hds _ (charAt_mem ds (t - 1) (by omega))
    have hscan : scanDigitsDown s (pre.length + ds.length) = pre.length :=
      scanDigitsDown_run s pre.length hnotdig ds.length hdigits
    have hdrop : s.drop (pre.length + 1) = ds ++ ['}'] := by
      rw [hs, show pre ++ '{' :: (ds ++ ['}']) = (pre ++ ['{']) ++ (ds ++ ['}']) by simp]
      rw [show pre.length + 1 = (pre ++ ['{']).length by simp]
      exact List.drop_left _ _
    simp only [endsWithLiteral, hi0, hlast, if_pos, decide_eq_false hplus,
               Bool.false_eq_true, if_neg, ite_false]
    rw [hscan, if_pos hbrace, hdrop]
    rw [show pre.length + ds.length - pre.length = ds.length by omega]
    rw [show (ds ++ ['}']).take ds.length = ds from List.take_left _ _]
    rw [hnum]
    rfl
  · set s := pre ++ '{' :: (ds ++ ['+', '}']) with hs
    have hlast : s.getLast? = some '}' := by
      rw [hs, show pre ++ '{' :: (ds ++ ['+', '}']) =
            (pre ++ '{' :: (ds ++ ['+'])) ++ ['}'] by simp]
      exact List.getLast?_concat _
    have hLen : s.length = pre.length + ds.length + 3 := by
      rw [hs]; simp; omega
    have hi0 : (s.length + 4294967294) % 4294967296 = pre.length + ds.length + 1 := by
      rw [hLen]
      have harith : pre.length + ds.length + 3 + 4294967294 =
          (pre.length + ds.length + 1) + 1 * 4294967296 := by omega
      rw [harith, Nat.add_mul_mod_self_right]
      exact Nat.mod_eq_of_lt (by omega)
    have hchar_i0 : charAt s (pre.length + ds.length + 1) = '+' := by
      rw [hs, show pre ++ '{' :: (ds ++ ['+', '}']) =
            (pre ++ ['{'] ++ ds) ++ ('+' :: ['}']) by simp]
      have h1 : pre.length + ds.length + 1 = (pre ++ ['{'] ++ ds).length + 0 := by
        simp; omega
      rw [h1, charAt_append]
      rfl
    have hbrace : charAt s pre.length = '{' := by
      rw [hs]
      have h0 := charAt_append pre ('{' :: (ds ++ ['+', '}'])) 0
      simpa using h0
    have hnotdig : ¬ ('0' ≤ charAt s pre.length ∧ charAt s pre.length ≤ '9') := by
      rw [hbrace]; decide
    have hdigits : ∀ t, 1 ≤ t → t ≤ ds.length →
        ('0' ≤ charAt s (pre.length + t) ∧ charAt s (pre.length + t) ≤ '9') := by
      intro t ht1 ht2
      have hv : charAt s (pre.length + t) = charAt ds (t - 1) := by
        rw [hs, charAt_append pre ('{' :: (ds ++ ['+', '}'])) t]
        rw [show t = (t - 1) + 1 by omega, charAt_cons_succ]
        exact charAt_append_left ds ['+', '}'] (t - 1) (by omega)
      rw [hv]
      exact hds _ (charAt_mem ds (t - 1) (by omega))
    have hscan : scanDigitsDown s (pre.length + ds.length) = pre.length :=
      scanDigitsDown_run s pre.length hnotdig ds.length hdigits
    have hdrop : s.drop (pre.length + 1) = ds ++ ['+', '}'] := by
      rw [hs, show pre ++ '{' :: (ds ++ ['+', '}']) =
            (pre ++ ['{']) ++ (ds ++ ['+', '}']) by simp]
      rw [show pre.length + 1 = (pre ++ ['{']).length by simp]
      exact List.drop_left _ _
    simp only [endsWithLiteral, hi0, hlast, if_pos, decide_eq_true hchar_i0,
               ite_true]
    rw [show pre.length + ds.length + 1 - 1 = pre.length + ds.length by omega]
    rw [hscan, if_pos hbrace, hdrop]
    rw [show pre.length + ds.length - pre.length = ds.length by omega]
    rw [show (ds ++ ['+', '}']).take ds.length = ds from List.take_left _ _]
    rw [hnum]
    rfl

/-- C3: on a complete line that endsWithLiteral recognises as a literal
of n bytes, the parser switches to literal mode with size n, emitting
the "+ reading literal" continuation exactly when the literal has no
trailing '+'; while fewer than n bytes are buffered the parser returns
consuming nothing; once n bytes are buffered exactly those n bytes are
appended to the command buffer and line parsing resumes; and a line
textually ending in the literal "&#123;ds&#125;" (resp.
"&#123;ds+&#125;") is recognised with its decimal value and plus
flag. -/
theorem literal_framing (st : ImapParseState) (line rest : List Char)
    (n : Nat) (plus : Bool)
    (hrl : st.readingLiteral = false)
    (hline : removeLine st.buffer = some (line, rest))
    (hlit : endsWithLiteral line = some (n, plus)) :
    imapParseStep st = some { st with
      buffer := rest,
      str := st.str ++ line ++ chars "\r\n",
      readingLiteral := true,
      literalSize := n,
      output := st.output ++ if plus then [] else [contLine] } ∧
    (∀ st2 : ImapParseState, st2.readingLiteral = true →
      st2.buffer.length < st2.literalSize → imapParseStep st2 = none) ∧
    (∀ st2 : ImapParseState, st2.readingLiteral = true →
      st2.literalSize ≤ st2.buffer.length →
      imapParseStep st2 = some { st2 with
        str := st2.str ++ st2.buffer.take st2.literalSize,
        buffer := st2.buffer.drop st2.literalSize,
        readingLiteral := false }) ∧
    (∀ pre ds : List Char, ds ≠ [] → (∀ c ∈ ds, '0' ≤ c ∧ c ≤ '9') →
      digitVal ds < 4294967296 → pre.length + ds.length ≤ 4294967293 →
      endsWithLiteral (pre ++ '{' :: (ds ++ ['}'])) =
        some (digitVal ds, false) ∧
      endsWithLiteral (pre ++ '{' :: (ds ++ ['+', '}'])) =
        some (digitVal ds, true)) := by
  refine ⟨?_, ?_, ?_, ?_⟩
  · simp [imapParseStep, hrl, hline, hlit]
  · intro st2 h1 h2
    simp [imapParseStep, h1, h2]
  · intro st2 h1 h2
    simp [imapParseStep, h1, Nat.not_lt.mpr h2]
  · intro pre ds hne hds hlt hlen
    exact endsWithLiteral_shape pre ds hne hds hlt hlen

/-- Witness for C3, on the line "a1 login &#123;5&#125;" followed by
three bytes of a five-byte literal. -/
theorem literal_framing_witness :
    imapParseStep ⟨chars "a1 login {5}\r\nabc", [], false, 0, [], []⟩ =
      some ⟨chars "abc", chars "a1 login {5}\r\n", true, 5, [contLine], []⟩ ∧
    imapParseStep ⟨chars "abc", chars "a1 login {5}\r\n", true, 5, [contLine], []⟩ =
      none ∧
    endsWithLiteral (chars "a1 login " ++ '{' :: (['5'] ++ ['}'])) =
      some (digitVal ['5'], false) := by
  have hmain := literal_framing
    ⟨chars "a1 login {5}\r\nabc", [], false, 0, [], []⟩
    (chars "a1 login {5}") (chars "abc") 5 false rfl (by decide) (by decide)
  refine ⟨?_, ?_, ?_⟩
  · rw [hmain.1]; decide
  · exact hmain.2.1 ⟨chars "abc", chars "a1 login {5}\r\n", true, 5, [contLine], []⟩
      rfl (by decide)
  · exact (hmain.2.2.2 (chars "a1 login ") ['5'] (by decide) (by decide)
      (by decide) (by decide)).1

/-- Reading past the end of the list gives the NUL default. -/
theorem charAt_ge_len (s : List Char) (i : Nat) (h : s.length ≤ i) :
    charAt s i = Char.ofNat 0 :=
  List.getD_eq_default s _ h

/-- A found occurrence lies at or after the start, in bounds, and
carries the sought character. -/
theorem findFrom_some_spec (s : List Char) (c : Char) :
    ∀ d start j, s.length - start ≤ d → findFrom s c start = some j →
      start ≤ j ∧ j < s.length ∧ charAt s j = c := by
  intro d
  induction d with
  | zero =>
    intro start j hd hf
    rw [findFrom] at hf
    rw [dif_neg (by omega : ¬ start < s.length)] at hf
    exact absurd hf (by simp)
  | succ d ih =>
    intro start j hd hf
    rw [findFrom] at hf
    by_cases hlt : start < s.length
    · rw [dif_pos hlt] at hf
      by_cases hc : charAt s start = c
      · rw [if_pos hc] at hf
        cases hf
        exact ⟨Nat.le_refl _, hlt, hc⟩
      · rw [if_neg hc] at hf
        have hx := ih (start + 1) j (by omega) hf
        exact ⟨by omega, hx.2.1, hx.2.2⟩
    · rw [dif_neg hlt] at hf
      exact absurd hf (by simp)

/-- A failed search means the character is absent from the searched
range. -/
theorem findFrom_none_spec (s : List Char) (c : Char) :
    ∀ d start, s.length - start ≤ d → findFrom s c start = none →
      ∀ j, start ≤ j → j < s.length → charAt s j ≠ c := by
  intro d
  induction d with
  | zero =>
    intro start hd _ j hj hjl
    exact absurd hjl (by omega)
  | succ d ih =>
    intro start hd hf j hj hjl
    rw [findFrom] at hf
    by_cases hlt : start < s.length
    · rw [dif_pos hlt] at hf
      by_cases hc : charAt s start = c
      · rw [if_pos hc] at hf
        exact absurd hf (by simp)
      · rw [if_neg hc] at hf
        rcases Nat.eq_or_lt_of_le hj with rfl | hj'
        · exact hc
        · exact ih (start + 1) (by omega) hf j (by omega) hjl
    · exact absurd hjl (by omega)

/-- Invariant of the semicolon-walking loop: with enough fuel, the
final index is at or after the start, is a semicolon unless it is the
start itself, and no semicolon lies strictly beyond it. -/
theorem lastSemiLoop_spec (s : List Char) :
    ∀ fuel i, s.length - i ≤ fuel →
      i ≤ lastSemiLoop s i fuel ∧
      (lastSemiLoop s i fuel = i ∨ charAt s (lastSemiLoop s i fuel) = ';') ∧
      (∀ j, lastSemiLoop s i fuel < j → j < s.length → charAt s j ≠ ';') := by
  intro fuel
  induction fuel with
  | zero =>
    intro i hf
    refine ⟨Nat.le_refl _, Or.inl rfl, ?_⟩
    intro j hj hjl
    exact absurd hjl (by simp only [lastSemiLoop] at hj; omega)
  | succ fuel ih =>
    intro i hf
    cases hfind : findFrom s ';' (i + 1) with
    | some j =>
      have heq : lastSemiLoop s i (fuel + 1) = lastSemiLoop s j fuel := by
        simp only [lastSemiLoop, hfind]
      have hspec := findFrom_some_spec s ';' s.length (i + 1) j (by omega) hfind
      have hrec := ih j (by omega)
      rw [heq]
      refine ⟨Nat.le_trans (by omega) hrec.1, ?_, hrec.2.2⟩
      rcases hrec.2.1 with heq2 | hch
      · exact Or.inr (by rw [heq2]; exact hspec.2.2)
      · exact Or.inr hch
    | none =>
      have heq : lastSemiLoop s i (fuel + 1) = i := by
        simp only [lastSemiLoop, hfind]
      rw [heq]
      refine ⟨Nat.le_refl _, Or.inl rfl, ?_⟩
      intro j hj hjl
      exact findFrom_none_spec s ';' s.length (i + 1) (by omega) hfind j
        (by omega) hjl

/-- In-bounds charAt agrees with get. -/
theorem charAt_lt_get : ∀ (s : List Char) (i : Nat) (h : i < s.length),
    charAt s i = s.get ⟨i, h⟩ := by
  intro s
  induction s with
  | nil => intro i h; simp at h
  | cons x xs ih =>
    intro i h
    cases i with
    | zero => rfl
    | succ i =>
      rw [charAt_cons_succ]
      exact ih i (by simpa using h)

/-- When the value contains a semicolon, the loop lands on the last
semicolon: the landing index holds ';', is in bounds, and no ';'
follows it. -/
theorem lastSemi_semi (s : List Char) (hmem : ';' ∈ s) :
    charAt s (lastSemi s) = ';' ∧ lastSemi s < s.length ∧
    (∀ j, lastSemi s < j → j < s.length → charAt s j ≠ ';') := by
  have h := lastSemiLoop_spec s s.length 0 (by omega)
  have hch : charAt s (lastSemi s) = ';' := by
    rcases h.2.1 with heq | hch
    · rw [lastSemi, heq]
      obtain ⟨⟨k, hk⟩, hgk⟩ := List.mem_iff_get.mp hmem
      rcases Nat.eq_zero_or_pos k with rfl | hkpos
      · rw [charAt_lt_get s 0 hk]
        exact hgk
      · exfalso
        refine h.2.2 k (by rw [heq] at *; omega) hk ?_
        rw [charAt_lt_get s k hk]
        exact hgk
    · exact hch
  have hlt : lastSemi s < s.length := by
    by_contra hge
    rw [charAt_ge_len s _ (by omega)] at hch
    exact absurd hch (by decide)
  exact ⟨hch, hlt, h.2.2⟩

/-- takeWhile runs through elements satisfying the predicate and stops
at the first failure. -/
theorem takeWhile_append_not (p : Char → Bool) :
    ∀ (xs : List Char) (y : Char) (ys : List Char),
      (∀ x ∈ xs, p x = true) → p y = false →
      (xs ++ y :: ys).takeWhile p = xs := by
  intro xs
  induction xs with
  | nil =>
    intro y ys _ hy
    simp [List.takeWhile_cons, hy]
  | cons x xs ih =>
    intro y ys hall hy
    have hx : p x = true := hall x (List.mem_cons_self _ _)
    simp [List.takeWhile_cons, hx,
          ih y ys (fun z hz => hall z (List.mem_cons_of_mem _ hz)) hy]

/-- The spec-side extraction on a value split at its last ';'. -/
theorem specAfterLastSemi_append (a b : List Char) (hb : ';' ∉ b) :
    specAfterLastSemi (a ++ ';' :: b) = b := by
  have hsplit : (a ++ ';' :: b).reverse = b.reverse ++ ';' :: a.reverse := by
    simp
  have hall : ∀ x ∈ b.reverse, (fun c => decide (c ≠ ';')) x = true := by
    intro x hx
    have hxb : x ∈ b := List.mem_reverse.mp hx
    exact decide_eq_true (fun heq => hb (heq ▸ hxb))
  have hy : (fun c => decide (c ≠ ';')) ';' = false := by simp
  rw [specAfterLastSemi, hsplit,
      takeWhile_append_not (fun c => decide (c ≠ ';')) b.reverse ';' a.reverse
        hall hy]
  exact List.reverse_reverse b

/-- Splitting off the element at an in-bounds position. -/
theorem drop_eq_charAt_cons : ∀ (s : List Char) (n : Nat), n < s.length →
    s.drop n = charAt s n :: s.drop (n + 1) := by
  intro s
  induction s with
  | nil => intro n h; simp at h
  | cons x xs ih =>
    intro n h
    cases n with
    | zero => rfl
    | succ n =>
      have h' : n < xs.length := by simpa using h
      simpa [charAt_cons_succ] using ih n h'

/-- Every member of a dropped suffix sits at an index past the cut. -/
theorem mem_drop_exists : ∀ (s : List Char) (n : Nat) (c : Char),
    c ∈ s.drop n → ∃ j, n ≤ j ∧ j < s.length ∧ charAt s j = c := by
  intro s
  induction s with
  | nil => intro n c h; simp at h
  | cons x xs ih =>
    intro n c h
    cases n with
    | zero =>
      rcases List.mem_cons.mp (by simpa using h) with rfl | hx
      · exact ⟨0, Nat.le_refl _, by simp, rfl⟩
      · obtain ⟨j, hj0, hjl, hje⟩ := ih 0 c (by simpa using hx)
        exact ⟨j + 1, by omega, by simpa using Nat.succ_lt_succ hjl,
          by rw [charAt_cons_succ]; exact hje⟩
    | succ n =>
      have h' : c ∈ xs.drop n := by simpa using h
      obtain ⟨j, hj0, hjl, hje⟩ := ih n c h'
      exact ⟨j + 1, by omega, by simpa using Nat.succ_lt_succ hjl,
        by rw [charAt_cons_succ]; exact hje⟩

/-- The source's extraction (v.mid after the loop) equals the claim's
substring after the last ';' whenever the value contains a ';'. -/
theorem extract_eq_spec (s : List Char) (hmem : ';' ∈ s) :
    extractAfterSemi s = specAfterLastSemi s := by
  obtain ⟨hch, hlt, hafter⟩ := lastSemi_semi s hmem
  have hsplit : s = s.take (lastSemi s) ++ ';' :: s.drop (lastSemi s + 1) := by
    conv_lhs => rw [← List.take_append_drop (lastSemi s) s]
    rw [drop_eq_charAt_cons s (lastSemi s) hlt, hch]
  have hnb : ';' ∉ s.drop (lastSemi s + 1) := by
    intro hmem'
    obtain ⟨j, hj0, hjl, hje⟩ := mem_drop_exists s (lastSemi s + 1) ';' hmem'
    exact hafter j (by omega) hjl hje
  rw [extractAfterSemi]
  conv_rhs => rw [hsplit]
  rw [specAfterLastSemi_append _ _ hnb]

/-- The claim's wording of the Received scan: the first Received field
whose value, cut after its last semicolon, parses as a valid date. -/
def specReceivedDate (parse : List Char → Option Nat) :
    List HField → Option Nat
  | [] => none
  | f :: fs =>
    if f.isReceived then
      match parse (specAfterLastSemi f.value) with
      | some t => some t
      | none => specReceivedDate parse fs
    else
      specReceivedDate parse fs

/-- When every Received value contains a ';', the source's scan and the
claim's scan agree. -/
theorem receivedDeduced_eq_spec (parse : List Char → Option Nat) :
    ∀ fs : List HField,
      (∀ f ∈ fs, f.isReceived = true → ';' ∈ f.value) →
      receivedDeduced parse fs = specReceivedDate parse fs := by
  intro fs
  induction fs with
  | nil => intro _; rfl
  | cons f fs ih =>
    intro hsemi
    have htail := ih (fun g hg hr => hsemi g (List.mem_cons_of_mem _ hg) hr)
    by_cases hr : f.isReceived = true
    · have hex := extract_eq_spec f.value
        (hsemi f (List.mem_cons_self _ _) hr)
      simp only [receivedDeduced, specReceivedDate, hr, if_true, hex, htail]
    · have hrf : f.isReceived = false := Bool.eq_false_iff.mpr hr
      simp [receivedDeduced, specReceivedDate, hrf, htail]

/-- C9: for a message with no explicit internal date whose Received
values contain a ';', the derived date comes from the first Received
field whose substring after its LAST ';' parses as a valid date (also
with several ';'), falling back to the Date header and then to the
current time; and on any value containing a ';' the source's loop
extraction is exactly the substring after the last ';'. -/
theorem internal_date_received (parse : List Char → Option Nat) (now : Nat)
    (m : MessageM)
    (hunset : m.explicitDate = 0)
    (hsemi : ∀ f ∈ m.fields, f.isReceived = true → ';' ∈ f.value) :
    internalDate parse now m =
      (match specReceivedDate parse m.fields with
       | some t => t
       | none => m.headerDate.getD now) ∧
    (∀ v : List Char, ';' ∈ v → extractAfterSemi v = specAfterLastSemi v) := by
  constructor
  · rw [internalDate, if_neg (by simp [hunset])]
    rw [receivedDeduced_eq_spec parse m.fields hsemi]
    cases specReceivedDate parse m.fields with
    | some t => rfl
    | none => cases m.headerDate <;> rfl
  · intro v hv
    exact extract_eq_spec v hv

/-- Witness for C9: a message whose first Received value has two ';'
and whose tail after the last one parses, dated 42. -/
theorem internal_date_received_witness :
    internalDate (fun s => if s = chars " 42" then some 42 else none) 99
      ⟨0, [⟨false, chars "skip"⟩, ⟨true, chars "from a;by b; 42"⟩], some 7⟩
      = 42 := by
  have hmain := internal_date_received
    (fun s => if s = chars " 42" then some 42 else none) 99
    ⟨0, [⟨false, chars "skip"⟩, ⟨true, chars "from a;by b; 42"⟩], some 7⟩
    rfl (by decide)
  rw [hmain.1]
  decide
